import Mathlib

/-!
Verification of `ExportSelectedLayersToShp.py`.

The script is a QGIS processing algorithm with two pieces of logic:
`get_source_name` (a two-branch string derivation) and `processAlgorithm`
(folder creation, selection filtering, a per-layer export loop).

Strings are embedded as `List Char` (Python `str` is a sequence of unicode
code points).  Python's string operations used by the script are translated
from their CPython semantics:
  - `sub in s`            : some occurrence of `sub` at an index of `s`;
  - `s.split(sep)`        : left-to-right greedy scan, cutting at each match
                            (structural recursion on a fuel bounded by the
                            string length, which always suffices);
  - `s.startswith(p)` / `s.endswith(p)`;
  - `os.path.basename(p)` : POSIX `p[p.rfind('/')+1:]`;
  - `os.path.splitext(p)` : split at the last `'.'` unless the characters
                            between the last `'/'` and that dot are all dots;
  - `os.path.join(a, b)`  : POSIX two-argument join.
The host-dependent parts of `processAlgorithm` (parameter lookup, the
`os.path.exists` probe, the selected-layer list, and the result of
`QgsVectorFileWriter.writeAsVectorFormat`) are inputs of the embedded
function; its side effects (created folders, feedback messages, writer
invocations, the returned dict) are collected in an output record, each
list in program order.
-/

namespace Qgs

/-- Characters of the literal `".gpkg|"` tested by `get_source_name`. -/
def gpkgTag : List Char := ['.', 'g', 'p', 'k', 'g', '|']

/-- Characters of the literal `"table="` used as split separator. -/
def tableTag : List Char := ['t', 'a', 'b', 'l', 'e', '=']

/-- Characters of the literal `"/"`. -/
def slashTag : List Char := ['/']

/-- Characters of the literal `"C:"`. -/
def driveTag : List Char := ['C', ':']

/-- Characters of the literal `".shp"` appended to the base filename. -/
def shpExt : List Char := ['.', 's', 'h', 'p']

/-- All indices of `s` at which `sub` occurs as a contiguous substring. -/
def occPositions (sub s : List Char) : List Nat :=
  (List.range (s.length + 1)).filter (fun i => decide ((s.drop i).take sub.length = sub))

/-- The index of the last occurrence of `sub` in `s` (occurrence indices are
listed in increasing order, so the last listed one is the largest). -/
def lastOccPos (sub s : List Char) : Option Nat :=
  (occPositions sub s).getLast?

/-- The substring of `s` that follows the last occurrence of `sub`; `s`
itself when `sub` does not occur.  This is the specification-side reading of
"the substring following the last occurrence". -/
def tailAfterLastOcc (sub s : List Char) : List Char :=
  match lastOccPos sub s with
  | some i => s.drop (i + sub.length)
  | none => s

/-- Python's `sub in s` membership test on strings: `sub` occurs in `s`. -/
def pyContains (sub s : List Char) : Bool :=
  !(occPositions sub s).isEmpty

/-- Python's `s.startswith(p)`. -/
def pyStartswith (p s : List Char) : Bool :=
  decide (s.take p.length = p)

/-- Python's `s.endswith(p)`. -/
def pyEndswith (p s : List Char) : Bool :=
  decide (s.drop (s.length - p.length) = p)

/-- Python's `s.split(sep)` for a non-empty separator, with explicit fuel so
that the function is structurally recursive (kernel-computable).  The scan is
left-to-right: whenever `sep` is a prefix of the remaining input a cut is
made and the scan resumes after the separator.  Fuel `s.length` always
suffices; Python raises `ValueError` on an empty separator, which the script
never uses. -/
def pySplitF (sep : List Char) : Nat → List Char → List (List Char)
  | 0, s => [s]
  | _ + 1, [] => [[]]
  | fuel + 1, c :: cs =>
    if (c :: cs).take sep.length = sep then
      [] :: pySplitF sep fuel ((c :: cs).drop sep.length)
    else
      match pySplitF sep fuel cs with
      | [] => [c :: cs]
      | r :: rs => (c :: r) :: rs

/-- Python's `s.split(sep)`. -/
def pySplit (sep s : List Char) : List (List Char) :=
  pySplitF sep s.length s

/-- Helper: the suffix of `s` after the last occurrence of `sep`, as an
option (`none` when `sep` does not occur), computed by a right-preferring
recursive scan.  Proved below to agree with `lastOccPos`. -/
def lastOccSuffix (sep : List Char) : List Char → Option (List Char)
  | [] => none
  | c :: cs =>
    match lastOccSuffix sep cs with
    | some t => some t
    | none =>
      if (c :: cs).take sep.length = sep then some ((c :: cs).drop sep.length)
      else none

/-- `sep` has no border: no proper non-empty suffix of `sep` is also a
prefix of `sep`.  For such separators the last chunk of `s.split(sep)` is
exactly the substring after the last occurrence of `sep`. -/
def NoBorder (sep : List Char) : Prop :=
  ∀ i, i < sep.length → 0 < i → sep.take (sep.length - i) ≠ sep.drop i

instance (sep : List Char) : Decidable (NoBorder sep) :=
  decidable_of_iff
    (∀ i ∈ List.range sep.length, 0 < i → sep.take (sep.length - i) ≠ sep.drop i)
    (by unfold NoBorder; simp [List.mem_range])

/-- POSIX `os.path.basename(p)`: `p[p.rfind('/')+1:]`, i.e. the substring
after the last `'/'` (all of `p` when there is no `'/'`). -/
def pyBasename (s : List Char) : List Char :=
  tailAfterLastOcc slashTag s

/-- First component of POSIX `os.path.splitext(p)`: with `d` the index of
the last dot and `f` one past the index of the last slash (`0` when there is
no slash, encoding `rfind`'s `-1`), the name is cut at `d` when `d` lies in
the basename and the characters at indices `f..d-1` are not all dots;
otherwise `p` is returned whole (no extension, or a leading-dot file). -/
def pySplitextFst (s : List Char) : List Char :=
  match lastOccPos ['.'] s with
  | none => s
  | some d =>
    let f : Nat := match lastOccPos slashTag s with
      | some i => i + 1
      | none => 0
    if f ≤ d then
      if (List.range' f (d - f)).any (fun j => decide ((s.drop j).take 1 ≠ ['.'])) then
        s.take d
      else s
    else s

/-- A QGIS map layer, restricted to what the script observes: whether it is
a `QgsVectorLayer`, `layer.name()`, `layer.source()`, and `layer.crs()`
(an opaque handle). -/
structure Layer where
  isVector : Bool
  name : List Char
  source : List Char
  crs : Nat
deriving DecidableEq

/-- `ExportSelectedLayersToShp.get_source_name`:

    source = layer.source()
    if ".gpkg|" in source:
        return source.split("table=")[-1]
    elif source.startswith("/") or source.startswith("C:"):
        return os.path.splitext(os.path.basename(source))[0]
    return layer.name()

`[-1]` on the (always non-empty) split result is `getLastD []`. -/
def get_source_name (layer : Layer) : List Char :=
  if pyContains gpkgTag layer.source then
    (pySplit tableTag layer.source).getLastD []
  else if pyStartswith slashTag layer.source || pyStartswith driveTag layer.source then
    pySplitextFst (pyBasename layer.source)
  else
    layer.name

/-- A feedback message: `feedback.pushInfo` or `feedback.pushWarning`. -/
inductive FMsg where
  | info : List Char → FMsg
  | warn : List Char → FMsg
deriving DecidableEq

/-- One invocation of `QgsVectorFileWriter.writeAsVectorFormat` with the
arguments the script passes: the layer, the output filename, `"UTF-8"`, the
layer's CRS, and `"ESRI Shapefile"`. -/
structure WriterCall where
  layer : Layer
  outPath : List Char
  encoding : List Char
  crs : Nat
  driver : List Char
deriving DecidableEq

/-- `QgsVectorFileWriter.NoError` (the success status code, value 0). -/
def NoError : Nat := 0

/-- POSIX `os.path.join(a, b)`:

    if b.startswith('/'): return b
    if not a or a.endswith('/'): return a + b
    return a + '/' + b
-/
def pyJoin (a b : List Char) : List Char :=
  if pyStartswith slashTag b then b
  else if a.isEmpty || pyEndswith slashTag a then a ++ b
  else a ++ '/' :: b

/-- Text of `f"Output folder created: {output_folder}"`. -/
def folderCreatedMsg (f : List Char) : List Char :=
  "Output folder created: ".toList ++ f

/-- Text of `"No vector layers selected for export."`. -/
def noVectorMsg : List Char :=
  "No vector layers selected for export.".toList

/-- Text of `f"✅ Layer {layer.name()} exported as {output_filename}"`. -/
def exportOkMsg (n p : List Char) : List Char :=
  "✅ Layer ".toList ++ n ++ " exported as ".toList ++ p

/-- Text of `f"❌ Error exporting {layer.name()}: {error[1]}"`. -/
def exportErrMsg (n e : List Char) : List Char :=
  "❌ Error exporting ".toList ++ n ++ ": ".toList ++ e

/-- `"UTF-8"`. -/
def utf8Tag : List Char := "UTF-8".toList

/-- `"ESRI Shapefile"`. -/
def esriTag : List Char := "ESRI Shapefile".toList

/-- `filename_base` of the loop body: the layer name when the enum is 0
("Layer Name"), `get_source_name` otherwise ("Data Source Name"). -/
def baseNameOf (filenameOption : Nat) (l : Layer) : List Char :=
  if filenameOption = 0 then l.name else get_source_name l

/-- `output_filename = os.path.join(output_folder, f"{filename_base}.shp")`. -/
def outPathOf (outputFolder : List Char) (filenameOption : Nat) (l : Layer) : List Char :=
  pyJoin outputFolder (baseNameOf filenameOption l ++ shpExt)

/-- One iteration of the export loop: the writer invocation and the
feedback message it produces.  `writer l p` is the host's result
`(error[0], error[1])` of `writeAsVectorFormat` for layer `l` and path `p`. -/
def exportStep (outputFolder : List Char) (filenameOption : Nat)
    (writer : Layer → List Char → Nat × List Char) (l : Layer) : WriterCall × FMsg :=
  let path := outPathOf outputFolder filenameOption l
  let err := writer l path
  (⟨l, path, utf8Tag, l.crs, esriTag⟩,
   if err.1 = NoError then FMsg.info (exportOkMsg l.name path)
   else FMsg.warn (exportErrMsg l.name err.2))

/-- The export loop over a layer list: writer invocations and messages in
program order. -/
def exportLoop (outputFolder : List Char) (filenameOption : Nat)
    (writer : Layer → List Char → Nat × List Char) : List Layer → List WriterCall × List FMsg
  | [] => ([], [])
  | l :: ls =>
    let s := exportStep outputFolder filenameOption writer l
    let r := exportLoop outputFolder filenameOption writer ls
    (s.1 :: r.1, s.2 :: r.2)

/-- The observable outcome of `processAlgorithm`: `os.makedirs` calls,
feedback messages, writer invocations (each in program order), and the
returned dict. -/
structure ProcOutput where
  madeDirs : List (List Char)
  msgs : List FMsg
  calls : List WriterCall
  ret : List (List Char × List Char)
deriving DecidableEq

/-- `ExportSelectedLayersToShp.processAlgorithm`.  `outputFolder` and
`filenameOption` are the two parameters; `folderExists` is the result of
`os.path.exists(output_folder)`; `selLayers` is
`iface.layerTreeView().selectedLayers()`; `writer` gives the host's
`writeAsVectorFormat` result.  The body:

    if not os.path.exists(output_folder):
        os.makedirs(output_folder)
        feedback.pushInfo(...)
    selected_layers = [l for l in ... if isinstance(l, QgsVectorLayer)]
    if not selected_layers:
        feedback.pushWarning(...); return {}
    for layer in selected_layers: ...  # exportLoop
    return {}
-/
def processAlgorithm (outputFolder : List Char) (filenameOption : Nat)
    (folderExists : Bool) (selLayers : List Layer)
    (writer : Layer → List Char → Nat × List Char) : ProcOutput :=
  let made : List (List Char) × List FMsg :=
    if folderExists then ([], [])
    else ([outputFolder], [FMsg.info (folderCreatedMsg outputFolder)])
  let selected := selLayers.filter (fun l => l.isVector)
  if selected.isEmpty then
    ⟨made.1, made.2 ++ [FMsg.warn noVectorMsg], [], []⟩
  else
    let r := exportLoop outputFolder filenameOption writer selected
    ⟨made.1, made.2 ++ r.2, r.1, []⟩

end Qgs

namespace Qgs

/-! Lemmas about occurrence positions and `lastOccSuffix`. -/

theorem occPositions_cons (sub : List Char) (c : Char) (cs : List Char) :
    occPositions sub (c :: cs)
      = (if (c :: cs).take sub.length = sub then [0] else [])
        ++ (occPositions sub cs).map Nat.succ := by
  unfold occPositions
  rw [List.length_cons, List.range_succ_eq_map, List.filter_cons, List.filter_map]
  have hfun : ((fun i => decide (((c :: cs).drop i).take sub.length = sub)) ∘ Nat.succ)
      = (fun i => decide ((cs.drop i).take sub.length = sub)) := by
    funext i
    simp [Function.comp, Nat.succ_eq_add_one, List.drop_succ_cons]
  rw [hfun]
  by_cases h : (c :: cs).take sub.length = sub <;> simp [h]

theorem occPositions_nil (sub : List Char) (hs : sub ≠ []) :
    occPositions sub [] = [] := by
  unfold occPositions
  simp [List.range_succ, Ne.symm hs]

theorem lastOccSuffix_eq (sub : List Char) (hs : sub ≠ []) (s : List Char) :
    lastOccSuffix sub s = (lastOccPos sub s).map (fun i => s.drop (i + sub.length)) := by
  induction s with
  | nil => simp [lastOccSuffix, lastOccPos, occPositions_nil sub hs]
  | cons c cs ih =>
    have hP : lastOccPos sub (c :: cs)
        = (((occPositions sub cs).map (fun i => i + 1)).getLast?).or
            ((if (c :: cs).take sub.length = sub then [0] else []).getLast?) := by
      rw [lastOccPos, occPositions_cons, List.getLast?_append]
    rw [List.getLast?_map] at hP
    cases hX : (occPositions sub cs).getLast? with
    | some i =>
      have hcs : lastOccSuffix sub cs = some (cs.drop (i + sub.length)) := by
        rw [ih, lastOccPos, hX]; rfl
      have hL : lastOccSuffix sub (c :: cs) = some (cs.drop (i + sub.length)) := by
        simp [lastOccSuffix, hcs]
      rw [hL, hP, hX]
      simp only [Option.map_some', Option.or, Option.map]
      rw [show i + 1 + sub.length = (i + sub.length) + 1 from by omega, List.drop_succ_cons]
    | none =>
      have hcs : lastOccSuffix sub cs = none := by rw [ih, lastOccPos, hX]; rfl
      rw [hP, hX]
      by_cases h0 : (c :: cs).take sub.length = sub
      · simp [lastOccSuffix, hcs, h0]
      · simp [lastOccSuffix, hcs, h0]

theorem pySplitF_ne_nil (sep : List Char) : ∀ (fuel : Nat) (s : List Char),
    pySplitF sep fuel s ≠ [] := by
  intro fuel s
  match fuel, s with
  | 0, s => simp [pySplitF]
  | _ + 1, [] => simp [pySplitF]
  | fuel + 1, c :: cs =>
    rw [pySplitF]
    split
    · simp
    · split <;> simp

theorem pySplitF_of_none (sep : List Char) :
    ∀ (fuel : Nat) (s : List Char), s.length ≤ fuel → lastOccSuffix sep s = none →
      pySplitF sep fuel s = [s] := by
  intro fuel
  induction fuel with
  | zero => intro s _ _; rfl
  | succ fuel ih =>
    intro s hlen hnone
    cases s with
    | nil => rfl
    | cons c cs =>
      have hlen' : cs.length ≤ fuel := by
        simp only [List.length_cons] at hlen; omega
      have hcs : lastOccSuffix sep cs = none := by
        cases h : lastOccSuffix sep cs with
        | none => rfl
        | some t => exfalso; simp [lastOccSuffix, h] at hnone
      have hc : ¬ ((c :: cs).take sep.length = sep) := by
        intro hcond
        simp [lastOccSuffix, hcs, hcond] at hnone
      rw [pySplitF, if_neg hc, ih cs hlen' hcs]

theorem pySplitF_two_le (sep : List Char) :
    ∀ (fuel : Nat) (s u : List Char), s.length ≤ fuel → lastOccSuffix sep s = some u →
      2 ≤ (pySplitF sep fuel s).length := by
  intro fuel
  induction fuel with
  | zero =>
    intro s u hlen hsome
    have hnil : s = [] := List.eq_nil_of_length_eq_zero (Nat.le_zero.mp hlen)
    subst hnil
    simp [lastOccSuffix] at hsome
  | succ fuel ih =>
    intro s u hlen hsome
    cases s with
    | nil => simp [lastOccSuffix] at hsome
    | cons c cs =>
      have hlen' : cs.length ≤ fuel := by
        simp only [List.length_cons] at hlen; omega
      by_cases hc : (c :: cs).take sep.length = sep
      · rw [pySplitF, if_pos hc]
        have hne := pySplitF_ne_nil sep fuel ((c :: cs).drop sep.length)
        have h1 : 0 < (pySplitF sep fuel ((c :: cs).drop sep.length)).length :=
          List.length_pos.mpr hne
        simp only [List.length_cons]
        omega
      · have hcs : lastOccSuffix sep cs = some u := by
          cases h : lastOccSuffix sep cs with
          | some t =>
            have ht : t = u := by simp [lastOccSuffix, h] at hsome; exact hsome
            rw [ht]
          | none => exfalso; simp [lastOccSuffix, h, hc] at hsome
        have h2 := ih cs u hlen' hcs
        rw [pySplitF, if_neg hc]
        rcases hps : pySplitF sep fuel cs with _ | ⟨r, rs⟩
        · rw [hps] at h2; simp at h2
        · rw [hps] at h2
          cases rs with
          | nil => simp at h2
          | cons r2 rs' => simp [List.length_cons]

end Qgs

namespace Qgs

/-! Border-free separators: the last split chunk is the substring after the
last occurrence. -/

theorem lastOccSuffix_drop_append (sep : List Char) (hnb : NoBorder sep) :
    ∀ (r t : List Char) (i : Nat), 0 < i → i ≤ sep.length → r = sep.drop i →
      lastOccSuffix sep (r ++ t) = lastOccSuffix sep t := by
  intro r
  induction r with
  | nil => intro t i _ _ _; rw [List.nil_append]
  | cons c r' ih =>
    intro t i hi0 hile hr
    have hilt : i < sep.length := by
      by_contra hge
      push_neg at hge
      rw [List.drop_eq_nil_of_le hge] at hr
      simp at hr
    have hr' : r' = sep.drop (i + 1) := by
      have h1 := congrArg (List.drop 1) hr
      simpa [List.drop_drop] using h1
    have hrec : lastOccSuffix sep (r' ++ t) = lastOccSuffix sep t :=
      ih t (i + 1) (Nat.succ_pos i) (by omega) hr'
    have hcond : ¬ ((c :: (r' ++ t)).take sep.length = sep) := by
      intro hc
      have hct : (c :: (r' ++ t)) = sep.drop i ++ t := by
        rw [← List.cons_append, hr]
      rw [hct] at hc
      have hlen : (sep.drop i).length = sep.length - i := List.length_drop i sep
      rw [List.take_append_eq_append_take,
        List.take_of_length_le (by omega : (sep.drop i).length ≤ sep.length)] at hc
      have hkey := congrArg (List.take (sep.length - i)) hc.symm
      rw [List.take_append_eq_append_take,
        List.take_of_length_le (le_of_eq hlen), hlen] at hkey
      simp at hkey
      exact hnb i hilt hi0 hkey
    show lastOccSuffix sep (c :: (r' ++ t)) = lastOccSuffix sep t
    rw [show lastOccSuffix sep (c :: (r' ++ t))
        = (match lastOccSuffix sep (r' ++ t) with
           | some u => some u
           | none =>
             if (c :: (r' ++ t)).take sep.length = sep
             then some ((c :: (r' ++ t)).drop sep.length) else none) from rfl]
    rw [hrec]
    cases hA : lastOccSuffix sep t with
    | some u => rfl
    | none => simp [hcond]

theorem lastOccSuffix_sep_append (sep : List Char) (hs : sep ≠ []) (hnb : NoBorder sep)
    (t : List Char) :
    lastOccSuffix sep (sep ++ t) = some ((lastOccSuffix sep t).getD t) := by
  obtain ⟨c, sep', hsep⟩ : ∃ c sep', sep = c :: sep' := by
    cases sep with
    | nil => exact absurd rfl hs
    | cons c sep' => exact ⟨c, sep', rfl⟩
  have hshape : sep ++ t = c :: (sep' ++ t) := by rw [hsep, List.cons_append]
  have h1 : lastOccSuffix sep (sep' ++ t) = lastOccSuffix sep t := by
    apply lastOccSuffix_drop_append sep hnb sep' t 1 Nat.one_pos
    · rw [hsep]; simp [List.length_cons]
    · rw [hsep]; rfl
  have hcond : (c :: (sep' ++ t)).take sep.length = sep := by
    rw [← hshape]; exact List.take_left sep t
  have hdropv : (c :: (sep' ++ t)).drop sep.length = t := by
    rw [← hshape]; exact List.drop_left sep t
  rw [hshape]
  rw [show lastOccSuffix sep (c :: (sep' ++ t))
      = (match lastOccSuffix sep (sep' ++ t) with
         | some u => some u
         | none =>
           if (c :: (sep' ++ t)).take sep.length = sep
           then some ((c :: (sep' ++ t)).drop sep.length) else none) from rfl]
  rw [h1]
  cases hA : lastOccSuffix sep t with
  | some u => rfl
  | none => simp [hcond, hdropv]

theorem pySplitF_getLastD (sep : List Char) (hs : sep ≠ []) (hnb : NoBorder sep) :
    ∀ (fuel : Nat) (s : List Char), s.length ≤ fuel →
      (pySplitF sep fuel s).getLastD [] = (lastOccSuffix sep s).getD s := by
  intro fuel
  induction fuel with
  | zero =>
    intro s hlen
    have hnil : s = [] := List.eq_nil_of_length_eq_zero (Nat.le_zero.mp hlen)
    subst hnil
    rfl
  | succ fuel ih =>
    intro s hlen
    cases s with
    | nil => rfl
    | cons c cs =>
      have hlen' : cs.length ≤ fuel := by
        simp only [List.length_cons] at hlen; omega
      by_cases hc : (c :: cs).take sep.length = sep
      · have hdec : (c :: cs) = sep ++ (c :: cs).drop sep.length := by
          conv_lhs => rw [← List.take_append_drop sep.length (c :: cs)]
          rw [hc]
        have hsl : 0 < sep.length := List.length_pos.mpr hs
        have hlsub : ((c :: cs).drop sep.length).length ≤ fuel := by
          rw [List.length_drop]
          simp only [List.length_cons] at hlen ⊢
          omega
        rw [pySplitF, if_pos hc, List.getLastD_cons, ih _ hlsub]
        conv_rhs => rw [hdec]
        rw [lastOccSuffix_sep_append sep hs hnb]
        rfl
      · cases hA : lastOccSuffix sep cs with
        | none =>
          have hN : lastOccSuffix sep (c :: cs) = none := by
            simp [lastOccSuffix, hA, hc]
          rw [pySplitF, if_neg hc, pySplitF_of_none sep fuel cs hlen' hA, hN]
          rfl
        | some u =>
          have hS : lastOccSuffix sep (c :: cs) = some u := by
            simp [lastOccSuffix, hA]
          have h2 := pySplitF_two_le sep fuel cs u hlen' hA
          have hL := ih cs hlen'
          rw [hA] at hL
          rw [pySplitF, if_neg hc, hS]
          rcases hps : pySplitF sep fuel cs with _ | ⟨r, rs⟩
          · rw [hps] at h2; simp at h2
          · rcases rs with _ | ⟨r2, rs'⟩
            · rw [hps] at h2; simp at h2
            · rw [hps] at hL
              rw [List.getLastD_cons]
              rw [List.getLastD_cons, List.getLastD_eq_getLast?] at hL
              rw [List.getLastD_eq_getLast?]
              cases hg : (r2 :: rs').getLast? with
              | none => exact absurd (List.getLast?_eq_none_iff.mp hg) (List.cons_ne_nil _ _)
              | some x => rw [hg] at hL; simpa using hL

theorem tailAfterLastOcc_eq_suffix (sub : List Char) (hs : sub ≠ []) (s : List Char) :
    tailAfterLastOcc sub s = (lastOccSuffix sub s).getD s := by
  rw [lastOccSuffix_eq sub hs s]
  unfold tailAfterLastOcc
  cases lastOccPos sub s with
  | none => rfl
  | some i => rfl

theorem pySplit_getLastD (sep : List Char) (hs : sep ≠ []) (hnb : NoBorder sep)
    (s : List Char) :
    (pySplit sep s).getLastD [] = tailAfterLastOcc sep s := by
  rw [pySplit, pySplitF_getLastD sep hs hnb s.length s (le_refl _),
    tailAfterLastOcc_eq_suffix sep hs s]

end Qgs

namespace Qgs

/-! Single-character occurrences, for `basename` and `splitext`. -/

theorem lastOccSuffix_single_notMem (c : Char) (s : List Char) (h : c ∉ s) :
    lastOccSuffix [c] s = none := by
  induction s with
  | nil => rfl
  | cons x xs ih =>
    rw [List.mem_cons, not_or] at h
    have hrec := ih h.2
    have hxc : ¬ ((x :: xs).take ([c] : List Char).length = [c]) := by
      simpa using Ne.symm h.1
    simp [lastOccSuffix, hrec, hxc]
    exact Ne.symm h.1

theorem occPositions_single_notMem (c : Char) (s : List Char) (h : c ∉ s) :
    occPositions [c] s = [] := by
  induction s with
  | nil => exact occPositions_nil [c] (by simp)
  | cons x xs ih =>
    rw [List.mem_cons, not_or] at h
    rw [occPositions_cons, ih h.2]
    simp [Ne.symm h.1]

theorem lastOccPos_single_append (c : Char) (pre rest : List Char) (h : c ∉ rest) :
    lastOccPos [c] (pre ++ c :: rest) = some pre.length := by
  induction pre with
  | nil =>
    rw [List.nil_append, lastOccPos, occPositions_cons,
      occPositions_single_notMem c rest h]
    simp
  | cons x pre' ih =>
    rw [List.cons_append, lastOccPos, occPositions_cons, List.getLast?_append,
      List.getLast?_map]
    have hX : (occPositions [c] (pre' ++ c :: rest)).getLast? = some pre'.length := by
      rw [← lastOccPos]; exact ih
    rw [hX]
    simp

theorem pyBasename_append (dir rest : List Char) (h : ('/' : Char) ∉ rest) :
    pyBasename (dir ++ '/' :: rest) = rest := by
  have hlp : lastOccPos slashTag (dir ++ '/' :: rest) = some dir.length := by
    rw [show slashTag = ['/'] from rfl]
    exact lastOccPos_single_append '/' dir rest h
  unfold pyBasename tailAfterLastOcc
  rw [hlp]
  show (dir ++ '/' :: rest).drop (dir.length + slashTag.length) = rest
  rw [show dir ++ '/' :: rest = (dir ++ ['/']) ++ rest from by simp,
    show dir.length + slashTag.length = (dir ++ ['/']).length from by simp [slashTag],
    List.drop_left]

theorem pySplitextFst_wellformed (stem ext : List Char)
    (hss : ('/' : Char) ∉ stem) (hse : ('/' : Char) ∉ ext)
    (hde : ('.' : Char) ∉ ext) (hnd : ∃ x ∈ stem, x ≠ '.') :
    pySplitextFst (stem ++ '.' :: ext) = stem := by
  have hdot : lastOccPos ['.'] (stem ++ '.' :: ext) = some stem.length :=
    lastOccPos_single_append '.' stem ext hde
  have hslash : lastOccPos slashTag (stem ++ '.' :: ext) = none := by
    rw [show slashTag = ['/'] from rfl, lastOccPos,
      occPositions_single_notMem '/' _ ?hm]
    · rfl
    case hm =>
      simp only [List.mem_append, List.mem_cons]
      push_neg
      exact ⟨hss, by decide, hse⟩
  have hany : (List.range' 0 (stem.length - 0)).any
      (fun j => decide (((stem ++ '.' :: ext).drop j).take 1 ≠ ['.'])) = true := by
    obtain ⟨x, hx, hxd⟩ := hnd
    obtain ⟨j, hj, hjx⟩ := List.mem_iff_getElem.mp hx
    apply List.any_eq_true.mpr
    refine ⟨j, ?_, ?_⟩
    · rw [List.mem_range'_1]; omega
    · rw [decide_eq_true_eq]
      rw [List.drop_append_eq_append_drop,
        show j - stem.length = 0 from by omega, List.drop_zero,
        List.drop_eq_getElem_cons hj, List.cons_append]
      simp only [List.take_succ_cons, List.take_zero]
      simp [hjx]
      exact hxd
  unfold pySplitextFst
  rw [hdot, hslash]
  simp only []
  rw [if_pos (Nat.zero_le _), if_pos hany]
  exact List.take_left stem ('.' :: ext)

/-! Claim theorems about `get_source_name`. -/

/-- Claim C1: for a layer whose source contains `".gpkg|"` (and in which
`"table="` occurs), `get_source_name` returns the substring of the source
following the last occurrence of `"table="`. -/
theorem get_source_name_gpkg_table (l : Layer)
    (hg : pyContains gpkgTag l.source = true)
    (ht : pyContains tableTag l.source = true) :
    get_source_name l = tailAfterLastOcc tableTag l.source := by
  unfold get_source_name
  rw [if_pos hg]
  exact pySplit_getLastD tableTag (by decide) (by decide) l.source

/-- Witness for C1 at a concrete GeoPackage-style source. -/
theorem get_source_name_gpkg_table_w :
    pyContains gpkgTag ("/d/a.gpkg|table=rivers".toList) = true ∧
    pyContains tableTag ("/d/a.gpkg|table=rivers".toList) = true ∧
    get_source_name ⟨true, ['L'], "/d/a.gpkg|table=rivers".toList, 0⟩
      = tailAfterLastOcc tableTag ("/d/a.gpkg|table=rivers".toList) ∧
    tailAfterLastOcc tableTag ("/d/a.gpkg|table=rivers".toList) = "rivers".toList :=
  ⟨by decide, by decide,
   get_source_name_gpkg_table ⟨true, ['L'], "/d/a.gpkg|table=rivers".toList, 0⟩
     (by decide) (by decide),
   by decide⟩

/-- Claim C10: for a layer whose source contains `".gpkg|"` but not
`"table="`, `get_source_name` returns the whole source unchanged. -/
theorem get_source_name_gpkg_no_table (l : Layer)
    (hg : pyContains gpkgTag l.source = true)
    (ht : pyContains tableTag l.source = false) :
    get_source_name l = l.source := by
  have hocc : occPositions tableTag l.source = [] := by
    simp [pyContains, List.isEmpty_iff] at ht
    exact ht
  have hnone : lastOccSuffix tableTag l.source = none := by
    rw [lastOccSuffix_eq tableTag (by decide), lastOccPos, hocc]
    rfl
  unfold get_source_name
  rw [if_pos hg, pySplit, pySplitF_of_none tableTag _ _ (le_refl _) hnone]
  rfl

/-- Witness for C10. -/
theorem get_source_name_gpkg_no_table_w :
    pyContains gpkgTag (".gpkg|x".toList) = true ∧
    pyContains tableTag (".gpkg|x".toList) = false ∧
    get_source_name ⟨true, ['L'], ".gpkg|x".toList, 0⟩ = ".gpkg|x".toList :=
  ⟨by decide, by decide,
   get_source_name_gpkg_no_table ⟨true, ['L'], ".gpkg|x".toList, 0⟩ (by decide) (by decide)⟩

/-- Claim C9: for a layer whose source neither contains `".gpkg|"` nor
starts with `"/"` or `"C:"`, `get_source_name` falls back to the layer's
display name. -/
theorem get_source_name_fallback (l : Layer)
    (hg : pyContains gpkgTag l.source = false)
    (h1 : pyStartswith slashTag l.source = false)
    (h2 : pyStartswith driveTag l.source = false) :
    get_source_name l = l.name := by
  simp [get_source_name, hg, h1, h2]

/-- Witness for C9. -/
theorem get_source_name_fallback_w :
    pyContains gpkgTag ("mem_source".toList) = false ∧
    pyStartswith slashTag ("mem_source".toList) = false ∧
    pyStartswith driveTag ("mem_source".toList) = false ∧
    get_source_name ⟨true, ['L'], "mem_source".toList, 0⟩ = ['L'] :=
  ⟨by decide, by decide, by decide,
   get_source_name_fallback ⟨true, ['L'], "mem_source".toList, 0⟩
     (by decide) (by decide) (by decide)⟩

end Qgs

namespace Qgs

/-- Counterexample to claim C2 as stated: `"data/rivers.shp"` is a file
path that does not contain `".gpkg|"`, yet `get_source_name` does not
return the base name `"rivers"` — it returns the layer's display name,
because the source starts with neither `"/"` nor `"C:"`. -/
theorem get_source_name_c2_cex :
    pyContains gpkgTag ("data/rivers.shp".toList) = false ∧
    get_source_name ⟨true, ['L'], "data/rivers.shp".toList, 0⟩ = ['L'] ∧
    pySplitextFst (pyBasename ("data/rivers.shp".toList)) = "rivers".toList ∧
    (['L'] : List Char) ≠ "rivers".toList := by decide

/-- Claim C2 (amended): for a layer whose source does not contain
`".gpkg|"` AND starts with `"/"` or `"C:"`, `get_source_name` returns the
source's base name with its extension stripped (second conjunct: on a
well-formed `dir/stem.ext` source this value is exactly `stem`). -/
theorem get_source_name_path :
    (∀ l : Layer, pyContains gpkgTag l.source = false →
       (pyStartswith slashTag l.source = true ∨ pyStartswith driveTag l.source = true) →
       get_source_name l = pySplitextFst (pyBasename l.source)) ∧
    (∀ dir stem ext : List Char, ('/' : Char) ∉ stem → ('/' : Char) ∉ ext →
       ('.' : Char) ∉ ext → (∃ x ∈ stem, x ≠ '.') →
       pySplitextFst (pyBasename (dir ++ '/' :: (stem ++ '.' :: ext))) = stem) := by
  constructor
  · intro l hg hs
    rcases hs with h | h <;> simp [get_source_name, hg, h]
  · intro dir stem ext hss hse hde hnd
    have hmem : ('/' : Char) ∉ stem ++ '.' :: ext := by
      simp only [List.mem_append, List.mem_cons]
      push_neg
      exact ⟨hss, by decide, hse⟩
    rw [pyBasename_append dir _ hmem]
    exact pySplitextFst_wellformed stem ext hss hse hde hnd

/-- Witness for the amended C2 at the source `"/d/riv.shp"`. -/
theorem get_source_name_path_w :
    pyContains gpkgTag ("/d/riv.shp".toList) = false ∧
    pyStartswith slashTag ("/d/riv.shp".toList) = true ∧
    get_source_name ⟨true, ['L'], "/d/riv.shp".toList, 0⟩
      = pySplitextFst (pyBasename ("/d/riv.shp".toList)) ∧
    pySplitextFst (pyBasename ("/d".toList ++ '/' :: ("riv".toList ++ '.' :: "shp".toList)))
      = "riv".toList ∧
    get_source_name ⟨true, ['L'], "/d/riv.shp".toList, 0⟩ = "riv".toList :=
  ⟨by decide, by decide,
   get_source_name_path.1 ⟨true, ['L'], "/d/riv.shp".toList, 0⟩ (by decide)
     (Or.inl (by decide)),
   get_source_name_path.2 ("/d".toList) ("riv".toList) ("shp".toList)
     (by decide) (by decide) (by decide) ⟨'r', by decide, by decide⟩,
   by decide⟩

/-- Counterexample to claim C7 as stated: two layers with the same source
string but different display names get different base names (the fallback
branch returns `layer.name()`), so the result does not depend only on the
data-source identifier. -/
theorem get_source_name_c7_cex :
    (⟨true, ['A'], "mem_source".toList, 0⟩ : Layer).source
      = (⟨true, ['B'], "mem_source".toList, 0⟩ : Layer).source ∧
    get_source_name ⟨true, ['A'], "mem_source".toList, 0⟩ = ['A'] ∧
    get_source_name ⟨true, ['B'], "mem_source".toList, 0⟩ = ['B'] ∧
    (['A'] : List Char) ≠ ['B'] := by decide

/-- Claim C7 (amended): `get_source_name` is a pure function of the
layer's source and display name; whenever the source contains `".gpkg|"`
or starts with `"/"` or `"C:"` (i.e. outside the fallback branch), the
result depends on the source alone: two layers with the same source string
are mapped to the same base name. -/
theorem get_source_name_source_determined (l1 l2 : Layer)
    (hsrc : l1.source = l2.source)
    (h : pyContains gpkgTag l1.source = true
       ∨ pyStartswith slashTag l1.source = true
       ∨ pyStartswith driveTag l1.source = true) :
    get_source_name l1 = get_source_name l2 := by
  unfold get_source_name
  rw [← hsrc]
  by_cases hg : pyContains gpkgTag l1.source = true
  · simp [hg]
  · rcases h with h | h | h
    · exact absurd h hg
    · simp [hg, h]
    · simp [hg, h]

/-- Witness for the amended C7: same source, different names and CRS. -/
theorem get_source_name_source_determined_w :
    (⟨true, ['A'], "/d/x.shp".toList, 0⟩ : Layer).source
      = (⟨false, ['B'], "/d/x.shp".toList, 1⟩ : Layer).source ∧
    pyStartswith slashTag ("/d/x.shp".toList) = true ∧
    get_source_name ⟨true, ['A'], "/d/x.shp".toList, 0⟩
      = get_source_name ⟨false, ['B'], "/d/x.shp".toList, 1⟩ :=
  ⟨rfl, by decide,
   get_source_name_source_determined ⟨true, ['A'], "/d/x.shp".toList, 0⟩
     ⟨false, ['B'], "/d/x.shp".toList, 1⟩ rfl (Or.inr (Or.inl (by decide)))⟩

end Qgs

namespace Qgs

/-! Lemmas about the export loop and `processAlgorithm`. -/

theorem exportLoop_eq (f : List Char) (o : Nat) (w : Layer → List Char → Nat × List Char)
    (ls : List Layer) :
    exportLoop f o w ls
      = (ls.map (fun l => (exportStep f o w l).1),
         ls.map (fun l => (exportStep f o w l).2)) := by
  induction ls with
  | nil => rfl
  | cons l ls ih => simp [exportLoop, ih]

theorem processAlgorithm_calls_eq (f : List Char) (o : Nat) (ex : Bool)
    (ls : List Layer) (w : Layer → List Char → Nat × List Char) :
    (processAlgorithm f o ex ls w).calls
      = (ls.filter (fun l => l.isVector)).map (fun l => (exportStep f o w l).1) := by
  unfold processAlgorithm
  cases hE : (ls.filter (fun l => l.isVector)).isEmpty with
  | true =>
    have h0 : ls.filter (fun l => l.isVector) = [] := List.isEmpty_iff.mp hE
    simp [hE, h0]
  | false => simp [hE, exportLoop_eq]

theorem processAlgorithm_msgs_eq (f : List Char) (o : Nat) (ex : Bool)
    (ls : List Layer) (w : Layer → List Char → Nat × List Char)
    (h : ls.filter (fun l => l.isVector) ≠ []) :
    (processAlgorithm f o ex ls w).msgs
      = (if ex then [] else [FMsg.info (folderCreatedMsg f)])
        ++ (ls.filter (fun l => l.isVector)).map (fun l => (exportStep f o w l).2) := by
  have hE : (ls.filter (fun l => l.isVector)).isEmpty = false := by
    cases hE : (ls.filter (fun l => l.isVector)).isEmpty with
    | true => exact absurd (List.isEmpty_iff.mp hE) h
    | false => rfl
  unfold processAlgorithm
  cases ex <;> simp [hE, exportLoop_eq]

theorem folderCreatedMsg_head (f : List Char) :
    (folderCreatedMsg f).head? = some 'O' := rfl

theorem exportOkMsg_head (n p : List Char) :
    (exportOkMsg n p).head? = some '✅' := rfl

theorem folderCreatedMsg_ne_ok (f n p : List Char) :
    folderCreatedMsg f ≠ exportOkMsg n p := by
  intro h
  have h1 := congrArg List.head? h
  rw [folderCreatedMsg_head, exportOkMsg_head] at h1
  exact absurd h1 (by decide)

/-- Claim C3: for every selected vector layer, `processAlgorithm` makes
exactly one writer invocation, in selection order, whose output path is the
output folder joined with the derived base name plus `".shp"` — the base
name being the layer's display name when the enum is 0 and
`get_source_name` otherwise — and whose remaining arguments are `"UTF-8"`,
the layer's CRS and `"ESRI Shapefile"`. -/
theorem processAlgorithm_writer_calls (f : List Char) (o : Nat) (ex : Bool)
    (ls : List Layer) (w : Layer → List Char → Nat × List Char) :
    (processAlgorithm f o ex ls w).calls
      = (ls.filter (fun l => l.isVector)).map
          (fun l => ⟨l, pyJoin f ((if o = 0 then l.name else get_source_name l) ++ shpExt),
                     utf8Tag, l.crs, esriTag⟩) := by
  rw [processAlgorithm_calls_eq]
  rfl

/-- Claim C4: the layers passed to the writer are exactly the selected
layers restricted to vector layers, in selection order; every written layer
is a vector layer. -/
theorem processAlgorithm_vector_only (f : List Char) (o : Nat) (ex : Bool)
    (ls : List Layer) (w : Layer → List Char → Nat × List Char) :
    (processAlgorithm f o ex ls w).calls.map (fun c => c.layer)
      = ls.filter (fun l => l.isVector) ∧
    ∀ c ∈ (processAlgorithm f o ex ls w).calls, c.layer.isVector = true := by
  have h1 : (processAlgorithm f o ex ls w).calls.map (fun c => c.layer)
      = ls.filter (fun l => l.isVector) := by
    rw [processAlgorithm_calls_eq, List.map_map]
    have hid : ((fun c : WriterCall => c.layer) ∘ (fun l => (exportStep f o w l).1))
        = id := by
      funext l; rfl
    rw [hid, List.map_id]
  refine ⟨h1, ?_⟩
  intro c hc
  have hm : c.layer ∈ (processAlgorithm f o ex ls w).calls.map (fun c => c.layer) :=
    List.mem_map_of_mem _ hc
  rw [h1] at hm
  exact (List.mem_filter.mp hm).2

/-- Claim C5: in the export loop each layer produces exactly one feedback
message — an info message when the writer status is `NoError`, otherwise a
warning carrying the writer's error text — and processing continues through
every layer (one writer call per layer, no early exit; the embedded
function is total, mirroring that the loop raises no exception). -/
theorem processAlgorithm_per_layer_feedback (f : List Char) (o : Nat) (ex : Bool)
    (ls : List Layer) (w : Layer → List Char → Nat × List Char)
    (h : ls.filter (fun l => l.isVector) ≠ []) :
    (processAlgorithm f o ex ls w).msgs
      = (if ex then [] else [FMsg.info (folderCreatedMsg f)])
        ++ (ls.filter (fun l => l.isVector)).map
            (fun l =>
              if (w l (outPathOf f o l)).1 = NoError
              then FMsg.info (exportOkMsg l.name (outPathOf f o l))
              else FMsg.warn (exportErrMsg l.name (w l (outPathOf f o l)).2)) ∧
    (processAlgorithm f o ex ls w).calls.length
      = (ls.filter (fun l => l.isVector)).length := by
  constructor
  · rw [processAlgorithm_msgs_eq f o ex ls w h]
    rfl
  · rw [processAlgorithm_calls_eq, List.length_map]

/-- Claim C6: `os.makedirs` runs exactly when the folder is missing — then
the creation info message is pushed before every other message — and when
the folder exists no creation happens and no creation message appears
anywhere in the feedback. -/
theorem processAlgorithm_folder_effect (f : List Char) (o : Nat) (ex : Bool)
    (ls : List Layer) (w : Layer → List Char → Nat × List Char) :
    (processAlgorithm f o ex ls w).madeDirs = (if ex then [] else [f]) ∧
    ∃ rest, (processAlgorithm f o ex ls w).msgs
        = (if ex then [] else [FMsg.info (folderCreatedMsg f)]) ++ rest ∧
      FMsg.info (folderCreatedMsg f) ∉ rest := by
  constructor
  · unfold processAlgorithm
    cases hE : (ls.filter (fun l => l.isVector)).isEmpty <;> cases ex <;> simp [hE]
  · cases hE : (ls.filter (fun l => l.isVector)).isEmpty with
    | true =>
      refine ⟨[FMsg.warn noVectorMsg], ?_, ?_⟩
      · unfold processAlgorithm
        cases ex <;> simp [hE]
      · simp
    | false =>
      refine ⟨(ls.filter (fun l => l.isVector)).map (fun l => (exportStep f o w l).2),
        ?_, ?_⟩
      · have h : ls.filter (fun l => l.isVector) ≠ [] := by
          intro h0
          rw [h0] at hE
          simp at hE
        exact processAlgorithm_msgs_eq f o ex ls w h
      · intro hmem
        obtain ⟨l, _, heq⟩ := List.mem_map.mp hmem
        by_cases hc : (w l (outPathOf f o l)).1 = NoError
        · have hstep : (exportStep f o w l).2
              = FMsg.info (exportOkMsg l.name (outPathOf f o l)) := by
            simp [exportStep, hc]
          rw [hstep] at heq
          exact folderCreatedMsg_ne_ok f l.name (outPathOf f o l) (FMsg.info.inj heq).symm
        · have hstep : (exportStep f o w l).2
              = FMsg.warn (exportErrMsg l.name (w l (outPathOf f o l)).2) := by
            simp [exportStep, hc]
          rw [hstep] at heq
          exact FMsg.noConfusion heq

/-- Claim C8: when the filtered selection has no vector layer, the
algorithm pushes the warning and returns the empty dict without any writer
invocation, but the missing output folder has nevertheless been created. -/
theorem processAlgorithm_no_vectors (f : List Char) (o : Nat) (ex : Bool)
    (ls : List Layer) (w : Layer → List Char → Nat × List Char)
    (h : ls.filter (fun l => l.isVector) = []) :
    (processAlgorithm f o ex ls w).calls = [] ∧
    (processAlgorithm f o ex ls w).ret = [] ∧
    (processAlgorithm f o ex ls w).msgs
      = (if ex then [] else [FMsg.info (folderCreatedMsg f)]) ++ [FMsg.warn noVectorMsg] ∧
    (processAlgorithm f o ex ls w).madeDirs = (if ex then [] else [f]) := by
  have hE : (ls.filter (fun l => l.isVector)).isEmpty = true := by simp [h]
  cases ex <;> simp [processAlgorithm, hE]

end Qgs

namespace Qgs

/-- Witness for C5: two vector layers (one exported, one failing) and one
non-vector layer; each vector layer yields exactly one message. -/
theorem processAlgorithm_per_layer_feedback_w :
    ([⟨true, "a".toList, "s1".toList, 5⟩, ⟨false, "r".toList, "s3".toList, 7⟩,
      ⟨true, "b".toList, "s2".toList, 6⟩] : List Layer).filter (fun l => l.isVector) ≠ [] ∧
    ((processAlgorithm "out".toList 0 true
        [⟨true, "a".toList, "s1".toList, 5⟩, ⟨false, "r".toList, "s3".toList, 7⟩,
         ⟨true, "b".toList, "s2".toList, 6⟩]
        (fun l _ => if l.name = "a".toList then ((0 : Nat), ([] : List Char))
                    else (1, "disk full".toList))).msgs
      = (if true then [] else [FMsg.info (folderCreatedMsg ("out".toList))])
        ++ (([⟨true, "a".toList, "s1".toList, 5⟩, ⟨false, "r".toList, "s3".toList, 7⟩,
              ⟨true, "b".toList, "s2".toList, 6⟩] : List Layer).filter
              (fun l => l.isVector)).map
            (fun l =>
              if ((fun (l : Layer) (_ : List Char) =>
                     if l.name = "a".toList then ((0 : Nat), ([] : List Char))
                     else (1, "disk full".toList)) l (outPathOf ("out".toList) 0 l)).1
                  = NoError
              then FMsg.info (exportOkMsg l.name (outPathOf ("out".toList) 0 l))
              else FMsg.warn (exportErrMsg l.name
                ((fun (l : Layer) (_ : List Char) =>
                    if l.name = "a".toList then ((0 : Nat), ([] : List Char))
                    else (1, "disk full".toList)) l (outPathOf ("out".toList) 0 l)).2)) ∧
     (processAlgorithm "out".toList 0 true
        [⟨true, "a".toList, "s1".toList, 5⟩, ⟨false, "r".toList, "s3".toList, 7⟩,
         ⟨true, "b".toList, "s2".toList, 6⟩]
        (fun l _ => if l.name = "a".toList then ((0 : Nat), ([] : List Char))
                    else (1, "disk full".toList))).calls.length
      = (([⟨true, "a".toList, "s1".toList, 5⟩, ⟨false, "r".toList, "s3".toList, 7⟩,
           ⟨true, "b".toList, "s2".toList, 6⟩] : List Layer).filter
           (fun l => l.isVector)).length) ∧
    (processAlgorithm "out".toList 0 true
        [⟨true, "a".toList, "s1".toList, 5⟩, ⟨false, "r".toList, "s3".toList, 7⟩,
         ⟨true, "b".toList, "s2".toList, 6⟩]
        (fun l _ => if l.name = "a".toList then ((0 : Nat), ([] : List Char))
                    else (1, "disk full".toList))).msgs
      = [FMsg.info (exportOkMsg ("a".toList) ("out/a.shp".toList)),
         FMsg.warn (exportErrMsg ("b".toList) ("disk full".toList))] :=
  ⟨by decide, processAlgorithm_per_layer_feedback _ _ _ _ _ (by decide), by decide⟩

/-- Witness for C8: a single selected non-vector (raster) layer, missing
output folder. -/
theorem processAlgorithm_no_vectors_w :
    ([⟨false, "r".toList, "t".toList, 3⟩] : List Layer).filter (fun l => l.isVector) = [] ∧
    ((processAlgorithm "out".toList 0 false [⟨false, "r".toList, "t".toList, 3⟩]
        (fun _ _ => ((0 : Nat), ([] : List Char)))).calls = [] ∧
     (processAlgorithm "out".toList 0 false [⟨false, "r".toList, "t".toList, 3⟩]
        (fun _ _ => ((0 : Nat), ([] : List Char)))).ret = [] ∧
     (processAlgorithm "out".toList 0 false [⟨false, "r".toList, "t".toList, 3⟩]
        (fun _ _ => ((0 : Nat), ([] : List Char)))).msgs
       = (if false then [] else [FMsg.info (folderCreatedMsg ("out".toList))])
         ++ [FMsg.warn noVectorMsg] ∧
     (processAlgorithm "out".toList 0 false [⟨false, "r".toList, "t".toList, 3⟩]
        (fun _ _ => ((0 : Nat), ([] : List Char)))).madeDirs
       = (if false then [] else ["out".toList])) :=
  ⟨by decide, processAlgorithm_no_vectors _ _ _ _ _ (by decide)⟩

end Qgs
